import Mathlib

/-!
A shallow embedding of `ConcurrentQueue<T>` from
`src/StackAndQueue/StackAndQueue/con_queue.hpp`: a mutex-guarded singly
linked FIFO queue.  We verify the sequential behaviour (each critical
section runs to completion before the next begins), so the mutex and the
condition variable are erased and every operation is a pure function on an
explicit queue state.  Heap-allocated nodes are modelled by a finite
association list from addresses (`Ptr`) to node records, so that the raw
back pointer `rear_` and the pointer comparison `front_.get() == rear_`
in the source are represented faithfully.
-/

/-- Addresses of heap-allocated nodes.  Both `std::unique_ptr<Node<T>>` and
the raw pointer `Node<T>*` are modelled as `Option Ptr`, with `none`
standing for `nullptr`. -/
abbrev Ptr := Nat

/-- Modelled from the spec: the header `node.hpp` included by
`con_queue.hpp` is not among the sources.  Per the spec (section 3) a node
"holds one element value of type T and an exclusively-owned link to the
next node (or none)"; the owning link is an address into the queue's heap. -/
structure Node (α : Type) where
  data : α
  next : Option Ptr
deriving Repr, DecidableEq

/-- The state of one `ConcurrentQueue<T>` object.  `heap` holds the nodes
the queue owns, `alloc` is the next fresh address handed out by
`std::make_unique`, and `front_`, `rear_`, `size_` are the data members of
the class.  The mutex and condition variable carry no sequential content
and are erased.  `size_` is a `std::size_t`; it is modelled on `Nat`, and
its only decrement sits on the non-empty path, where the invariant gives
`size_ >= 1`, so no wrap-around is reachable. -/
structure ConcurrentQueue (α : Type) where
  heap : List (Ptr × Node α)
  alloc : Ptr
  front_ : Option Ptr
  rear_ : Option Ptr
  size_ : Nat
deriving Repr, DecidableEq

variable {α : Type}

/-- `ConcurrentQueue() = default;`: `front_` null, `rear_` null
(in-class initialiser), `size_ = 0`, no nodes allocated. -/
def ConcurrentQueue.init : ConcurrentQueue α :=
  ⟨[], 0, none, none, 0⟩

/-- Dereference a node pointer (`p->data`, `p->next`): look the address up
in the heap. -/
def hLookup (heap : List (Ptr × Node α)) (p : Ptr) : Option (Node α) :=
  match heap with
  | [] => none
  | e :: rest => if e.1 = p then some e.2 else hLookup rest p

/-- In-place update of the `next` field of the node at address `p`
(`rear_->next = std::move(newNode);`). -/
def hSetNext (heap : List (Ptr × Node α)) (p : Ptr) (nx : Option Ptr) :
    List (Ptr × Node α) :=
  heap.map fun e => if e.1 = p then (e.1, ⟨e.2.data, nx⟩) else e

/-- Deallocate the node at address `p` (the `unique_ptr` destructor run on
the old front node by `front_ = std::move(front_->next);`). -/
def hErase (heap : List (Ptr × Node α)) (p : Ptr) : List (Ptr × Node α) :=
  heap.filter fun e => e.1 ≠ p

/-- `empty_unsafe()` (the lock is already held): `return front_ == nullptr;`. -/
def ConcurrentQueue.empty_locked (q : ConcurrentQueue α) : Bool :=
  q.front_.isNone

/-- `push_unsafe(T value)` (the insertion primitive used with the lock
already held): allocate a node; if the queue is empty the node becomes both
`front_` and `rear_`, otherwise it is linked behind `rear_` and `rear_`
advances to it; `size_` is incremented.  The `rear_ == nullptr` case under
a non-null `front_` would dereference a null pointer in the source
(unreachable under the invariant); the state is returned unchanged there. -/
def ConcurrentQueue.push_locked (q : ConcurrentQueue α) (value : α) :
    ConcurrentQueue α :=
  let p := q.alloc
  let newNode : Node α := ⟨value, none⟩
  match q.front_ with
  | none =>
      { heap := (p, newNode) :: q.heap, alloc := p + 1,
        front_ := some p, rear_ := some p, size_ := q.size_ + 1 }
  | some f =>
      match q.rear_ with
      | some r =>
          { heap := (p, newNode) :: hSetNext q.heap r (some p),
            alloc := p + 1, front_ := some f, rear_ := some p,
            size_ := q.size_ + 1 }
      | none => q

/-- `push(T value)`: take the lock, `push_unsafe(std::move(value))`,
release, `not_empty_cv_.notify_one()`.  Sequentially the lock and the
notification are erased, leaving exactly the `push_unsafe` mutation. -/
def ConcurrentQueue.push (q : ConcurrentQueue α) (value : α) :
    ConcurrentQueue α :=
  q.push_locked value

/-- `bool try_pop(T& value)`: result `(r, v, q')` where `r` is the returned
`bool`, `v` the contents of the out parameter `value` after the call
(`value0` is its contents before), and `q'` the queue afterwards.  If
`empty_unsafe()` it returns `false` at once; otherwise the front node's
data is moved into `value`, `rear_` is nulled when `front_.get() == rear_`,
`front_` advances to the next node (destroying the old front node), and
`size_` is decremented.  The branch where `front_` dangles (no heap entry)
would be undefined behaviour in the source and is unreachable under the
invariant. -/
def ConcurrentQueue.try_pop (q : ConcurrentQueue α) (value0 : α) :
    Bool × α × ConcurrentQueue α :=
  match q.front_ with
  | none => (false, value0, q)
  | some f =>
      match hLookup q.heap f with
      | none => (false, value0, q)
      | some n =>
          (true, n.data,
           { heap := hErase q.heap f, alloc := q.alloc,
             front_ := n.next,
             rear_ := if q.rear_ = some f then none else q.rear_,
             size_ := q.size_ - 1 })

/-- `void pop(T& value)` (blocking): waits on the condition variable with
predicate `!empty_unsafe()`, then performs the same removal as `try_pop`.
Sequentially no producer can run during the wait, so on a non-empty queue
the wait returns at once and on an empty queue the call never returns;
the latter is modelled as `none` ("blocks forever"). -/
def ConcurrentQueue.pop (q : ConcurrentQueue α) :
    Option (α × ConcurrentQueue α) :=
  match q.front_ with
  | none => none
  | some f =>
      match hLookup q.heap f with
      | none => none
      | some n =>
          some (n.data,
            { heap := hErase q.heap f, alloc := q.alloc,
              front_ := n.next,
              rear_ := if q.rear_ = some f then none else q.rear_,
              size_ := q.size_ - 1 })

/-- `bool pop(T& value, std::chrono::milliseconds timeout)`: `wait_for`
returns the value of the predicate `!empty_unsafe()` when it stops waiting.
Sequentially no producer can run during the wait, so on an empty queue the
timeout elapses and the call returns `false` without touching `value` or
the queue, and on a non-empty queue the predicate holds at once and the
call performs the same removal as `try_pop` and returns `true`. -/
def ConcurrentQueue.pop_timed (q : ConcurrentQueue α) (value0 : α) :
    Bool × α × ConcurrentQueue α :=
  match q.front_ with
  | none => (false, value0, q)
  | some f =>
      match hLookup q.heap f with
      | none => (false, value0, q)
      | some n =>
          (true, n.data,
           { heap := hErase q.heap f, alloc := q.alloc,
             front_ := n.next,
             rear_ := if q.rear_ = some f then none else q.rear_,
             size_ := q.size_ - 1 })

/-- `bool try_peek(T& value) const`: copies the front node's `data` into
`value` without removing anything, or returns `false` when empty.  The
method is `const`; the queue state is still returned (always unchanged) so
that theorems can state the absence of mutation. -/
def ConcurrentQueue.try_peek (q : ConcurrentQueue α) (value0 : α) :
    Bool × α × ConcurrentQueue α :=
  match q.front_ with
  | none => (false, value0, q)
  | some f =>
      match hLookup q.heap f with
      | none => (false, value0, q)
      | some n => (true, n.data, q)

/-- `bool empty() const`: lock, `return empty_unsafe();`. -/
def ConcurrentQueue.empty (q : ConcurrentQueue α) : Bool :=
  q.empty_locked

/-- `std::size_t size() const`: lock, `return size_;`. -/
def ConcurrentQueue.size (q : ConcurrentQueue α) : Nat :=
  q.size_

/-- The loop shared by the copy constructor and copy assignment:
`Node<T>* current = other.front_.get(); while (current != nullptr) { push(current->data); current = current->next.get(); }`
(the assignment spells the push `push_unsafe`, which performs the same
mutation since the lock is erased).  `fuel` makes the traversal total; a
well-formed source chain ends within `src.heap.length` steps, so fuel is
never exhausted there. -/
def ConcurrentQueue.copyLoop (src : ConcurrentQueue α) :
    Option Ptr → Nat → ConcurrentQueue α → ConcurrentQueue α
  | none, _, acc => acc
  | some _, 0, acc => acc
  | some p, fuel + 1, acc =>
      match hLookup src.heap p with
      | none => acc
      | some n => ConcurrentQueue.copyLoop src n.next fuel (acc.push n.data)

/-- `ConcurrentQueue(const ConcurrentQueue& other)`: lock `other`, walk its
chain front to rear and `push` a copy of each element into the freshly
default-initialised instance.  `other` is taken by const reference and not
mutated. -/
def ConcurrentQueue.copyCtor (other : ConcurrentQueue α) : ConcurrentQueue α :=
  ConcurrentQueue.copyLoop other other.front_ (other.heap.length + 1)
    ConcurrentQueue.init

/-- `operator=(const ConcurrentQueue& other)`.  `same` stands for the
object-identity test `this == &other`; when it holds the whole body is
skipped and `*this` is returned unchanged.  Otherwise both mutexes are
locked with `std::lock`, the destination chain is cleared
(`front_.reset(); rear_ = nullptr; size_ = 0;`) and the source chain is
copied over with `push_unsafe`.  Returns the new state of `*this`; the
source is not mutated. -/
def ConcurrentQueue.copyAssign (dest other : ConcurrentQueue α)
    (same : Bool) : ConcurrentQueue α :=
  if same then dest
  else
    ConcurrentQueue.copyLoop other other.front_ (other.heap.length + 1)
      { heap := [], alloc := dest.alloc, front_ := none, rear_ := none,
        size_ := 0 }

/-- `ConcurrentQueue(ConcurrentQueue&& other)`: under the source's lock,
`front_ = std::move(other.front_); rear_ = other.rear_; size_ = other.size_;
other.rear_ = nullptr; other.size_ = 0;`.  Returns (the new object, the
source afterwards).  The node chain moves wholesale with `front_`, so the
new object takes over the source's heap and the source owns no nodes
afterwards. -/
def ConcurrentQueue.moveCtor (other : ConcurrentQueue α) :
    ConcurrentQueue α × ConcurrentQueue α :=
  ({ heap := other.heap, alloc := other.alloc, front_ := other.front_,
     rear_ := other.rear_, size_ := other.size_ },
   { heap := [], alloc := other.alloc, front_ := none, rear_ := none,
     size_ := 0 })

/-- `operator=(ConcurrentQueue&& other)`.  `same` stands for
`this == &other`; when it holds the body is skipped and both (identical)
objects are unchanged.  Otherwise both mutexes are locked and the same
field transfer as in the move constructor runs, destroying the
destination's old chain via `front_ = std::move(other.front_)`.  Returns
(`*this` afterwards, `other` afterwards). -/
def ConcurrentQueue.moveAssign (dest other : ConcurrentQueue α)
    (same : Bool) : ConcurrentQueue α × ConcurrentQueue α :=
  if same then (dest, other)
  else ConcurrentQueue.moveCtor other

/-- The values stored in the chain starting at pointer `start`, following
`next` links for at most `fuel` steps. -/
def chainVals (heap : List (Ptr × Node α)) :
    Option Ptr → Nat → List α
  | none, _ => []
  | some _, 0 => []
  | some p, fuel + 1 =>
      match hLookup heap p with
      | none => []
      | some n => n.data :: chainVals heap n.next fuel

/-- The abstract contents of a queue: the values on the chain hanging off
`front_`, front to rear (`size_` steps suffice on any well-formed state). -/
def ConcurrentQueue.toList (q : ConcurrentQueue α) : List α :=
  chainVals q.heap q.front_ q.size_

/-- Push a whole list, first element first (`push` called once per value,
each critical section completing before the next begins). -/
def ConcurrentQueue.pushAll (q : ConcurrentQueue α) (vs : List α) :
    ConcurrentQueue α :=
  vs.foldl ConcurrentQueue.push q

/-- Call `try_pop` `n` times in a row (same out-parameter variable,
initially `value0`), collecting the contents of the out parameter after
each call together with the final queue. -/
def ConcurrentQueue.popN (q : ConcurrentQueue α) (value0 : α) :
    Nat → List α × ConcurrentQueue α
  | 0 => ([], q)
  | n + 1 =>
      let r := q.try_pop value0
      let rest := ConcurrentQueue.popN r.2.2 r.2.1 n
      (r.2.1 :: rest.1, rest.2)

/-- A sequence of `n` sequential removals, the `k`-th performed by blocking
`pop` when `c k = true` and by `try_pop` when `c k = false`.  The result is
`none` when some removal fails to return a value (a `try_pop` miss, counted
as not being a removal, or a `pop` that blocks forever); otherwise the list
of removed values and the final queue. -/
def ConcurrentQueue.drain :
    ConcurrentQueue α → α → (Nat → Bool) → Nat →
      Option (List α × ConcurrentQueue α)
  | q, _, _, 0 => some ([], q)
  | q, d, c, n + 1 =>
      match (if c n then q.pop
             else match q.try_pop d with
                  | (true, v, q2) => some (v, q2)
                  | (false, _, _) => none) with
      | none => none
      | some (v, q2) =>
          match ConcurrentQueue.drain q2 d c n with
          | none => none
          | some (vs, q3) => some (v :: vs, q3)

/-- `Chain heap start ps vs`: starting at node pointer `start` and
following `next` links visits exactly the addresses `ps`, whose nodes hold
the values `vs`, and ends at `nullptr`. -/
inductive Chain (heap : List (Ptr × Node α)) :
    Option Ptr → List Ptr → List α → Prop
  | nil : Chain heap none [] []
  | cons {p : Ptr} {v : α} {nx : Option Ptr} {ps : List Ptr} {vs : List α} :
      hLookup heap p = some ⟨v, nx⟩ → Chain heap nx ps vs →
      Chain heap (some p) (p :: ps) (v :: vs)

/-- The structural invariant of the queue (spec section 3): the chain from
`front_` is a `nullptr`-terminated, duplicate-free path of exactly `size_`
nodes whose last address is the one `rear_` holds (`List.getLast?` is
`none` exactly when the chain is empty, which makes `front_` empty iff
`rear_` empty iff `size_ = 0`), and every allocated address lies below the
fresh-allocation counter. -/
def ConcurrentQueue.WF (q : ConcurrentQueue α) : Prop :=
  ∃ ps vs, Chain q.heap q.front_ ps vs ∧ ps.length = q.size_ ∧
    q.rear_ = ps.getLast? ∧ ps.Nodup ∧ ∀ e ∈ q.heap, e.1 < q.alloc

/-! ### Heap lemmas -/

theorem hLookup_cons (a : Ptr) (n : Node α) (h : List (Ptr × Node α))
    (q : Ptr) :
    hLookup ((a, n) :: h) q = if a = q then some n else hLookup h q := rfl

theorem hSetNext_cons (a : Ptr) (m : Node α) (rest : List (Ptr × Node α))
    (r : Ptr) (nx : Option Ptr) :
    hSetNext ((a, m) :: rest) r nx
      = (if a = r then (a, (⟨m.data, nx⟩ : Node α)) else (a, m))
          :: hSetNext rest r nx := by
  by_cases ha : a = r
  · simp [hSetNext, ha]
  · simp [hSetNext, ha]

theorem hErase_cons (a : Ptr) (m : Node α) (rest : List (Ptr × Node α))
    (p : Ptr) :
    hErase ((a, m) :: rest) p
      = if a = p then hErase rest p else (a, m) :: hErase rest p := by
  by_cases ha : a = p
  · simp [hErase, List.filter_cons, ha]
  · simp [hErase, List.filter_cons, ha]

theorem hLookup_mem {h : List (Ptr × Node α)} {p : Ptr} {n : Node α}
    (hl : hLookup h p = some n) : (p, n) ∈ h := by
  induction h with
  | nil => exact absurd hl (by simp [hLookup])
  | cons e rest ih =>
      obtain ⟨a, m⟩ := e
      by_cases ha : a = p
      · subst ha
        rw [hLookup_cons, if_pos rfl] at hl
        cases hl
        exact List.mem_cons_self _ _
      · rw [hLookup_cons, if_neg ha] at hl
        exact List.mem_cons_of_mem _ (ih hl)

theorem hLookup_hSetNext_ne {h : List (Ptr × Node α)} {q r : Ptr}
    (nx : Option Ptr) (hne : q ≠ r) :
    hLookup (hSetNext h r nx) q = hLookup h q := by
  induction h with
  | nil => rfl
  | cons e rest ih =>
      obtain ⟨a, m⟩ := e
      rw [hSetNext_cons]
      by_cases ha : a = r
      · have haq : ¬ a = q := fun h2 => hne (h2.symm.trans ha)
        rw [if_pos ha, hLookup_cons, hLookup_cons, ih, if_neg haq, if_neg haq]
      · rw [if_neg ha, hLookup_cons, hLookup_cons, ih]

theorem hLookup_hSetNext_eq {h : List (Ptr × Node α)} (r : Ptr)
    (nx : Option Ptr) :
    hLookup (hSetNext h r nx) r
      = (hLookup h r).map fun n => (⟨n.data, nx⟩ : Node α) := by
  induction h with
  | nil => rfl
  | cons e rest ih =>
      obtain ⟨a, m⟩ := e
      rw [hSetNext_cons]
      by_cases ha : a = r
      · simp [hLookup_cons, ha]
      · simp [hLookup_cons, ha, ih]

theorem hLookup_hErase {h : List (Ptr × Node α)} (p q : Ptr) :
    hLookup (hErase h p) q = if q = p then none else hLookup h q := by
  induction h with
  | nil => simp [hErase, hLookup]
  | cons e rest ih =>
      obtain ⟨a, m⟩ := e
      rw [hErase_cons]
      by_cases ha : a = p
      · by_cases hq : q = p
        · rw [if_pos ha, ih, if_pos hq, if_pos hq]
        · have haq : ¬ a = q := fun h2 => hq (h2.symm.trans ha)
          rw [if_pos ha, ih, if_neg hq, if_neg hq, hLookup_cons, if_neg haq]
      · by_cases hq : q = p
        · have haq : ¬ a = q := fun h2 => ha (h2.trans hq)
          rw [if_neg ha, hLookup_cons, if_neg haq, ih, if_pos hq, if_pos hq]
        · rw [if_neg ha, hLookup_cons, ih]
          by_cases hq2 : a = q
          · rw [if_pos hq2, if_neg hq, hLookup_cons, if_pos hq2]
          · rw [if_neg hq2, hLookup_cons, if_neg hq2]

theorem hErase_subset {h : List (Ptr × Node α)} {p : Ptr}
    {e : Ptr × Node α} (he : e ∈ hErase h p) : e ∈ h :=
  List.mem_of_mem_filter he

/-! ### Chain lemmas -/

theorem Chain.length_eq {heap : List (Ptr × Node α)} {s : Option Ptr}
    {ps : List Ptr} {vs : List α} (h : Chain heap s ps vs) :
    ps.length = vs.length := by
  induction h with
  | nil => rfl
  | cons _ _ ih => simp [ih]

theorem Chain.lookup_of_mem {heap : List (Ptr × Node α)} {s : Option Ptr}
    {ps : List Ptr} {vs : List α} {p : Ptr} (h : Chain heap s ps vs)
    (hp : p ∈ ps) : ∃ n, hLookup heap p = some n := by
  induction h with
  | nil => cases hp
  | cons hl _ ih =>
      rcases List.mem_cons.mp hp with h1 | h2
      · exact ⟨_, h1 ▸ hl⟩
      · exact ih h2

theorem Chain.congr {heap hp2 : List (Ptr × Node α)} {s : Option Ptr}
    {ps : List Ptr} {vs : List α} (h : Chain heap s ps vs)
    (hpres : ∀ p ∈ ps, hLookup hp2 p = hLookup heap p) :
    Chain hp2 s ps vs := by
  induction h with
  | nil => exact Chain.nil
  | cons hl hc ih =>
      exact Chain.cons ((hpres _ (List.mem_cons_self _ _)).trans hl)
        (ih fun p hp => hpres p (List.mem_cons_of_mem _ hp))

theorem chainVals_of_chain {heap : List (Ptr × Node α)} {s : Option Ptr}
    {ps : List Ptr} {vs : List α} (h : Chain heap s ps vs) :
    ∀ fuel, ps.length ≤ fuel → chainVals heap s fuel = vs := by
  induction h with
  | nil => intro fuel _; cases fuel <;> rfl
  | @cons p v nx ps' vs' hl hc ih =>
      intro fuel hf
      cases fuel with
      | zero => exact absurd hf (by simp)
      | succ m =>
          have hm : ps'.length ≤ m := Nat.le_of_succ_le_succ hf
          simp [chainVals, hl, ih m hm]

theorem Chain.snoc {heap : List (Ptr × Node α)} {s : Option Ptr}
    {ps : List Ptr} {vs : List α} {r p : Ptr} {v : α}
    (h : Chain heap s ps vs) (hr : ps.getLast? = some r) (hnd : ps.Nodup)
    (hpk : hLookup heap p = none) :
    Chain ((p, (⟨v, none⟩ : Node α)) :: hSetNext heap r (some p)) s
      (ps ++ [p]) (vs ++ [v]) := by
  induction h with
  | nil => simp at hr
  | @cons q w nx ps' vs' hl hc ih =>
      have hqp : ¬ p = q := by
        intro he
        rw [he] at hpk
        rw [hpk] at hl
        cases hl
      cases ps' with
      | nil =>
          have hrq : r = q := by
            simp at hr
            exact hr.symm
          obtain ⟨hps', hvs'⟩ : nx = none ∧ vs' = [] := by
            cases hc
            exact ⟨rfl, rfl⟩
          subst hrq hps' hvs'
          refine Chain.cons ?_ (Chain.cons ?_ Chain.nil)
          · rw [hLookup_cons, if_neg hqp, hLookup_hSetNext_eq, hl]
            rfl
          · rw [hLookup_cons, if_pos rfl]
      | cons q2 ps'' =>
          have hr' : (q2 :: ps'').getLast? = some r := by
            rw [← List.getLast?_cons_cons (a := q)]
            exact hr
          have hnd' : (q2 :: ps'').Nodup := (List.nodup_cons.mp hnd).2
          have hqmem : q ∉ q2 :: ps'' := (List.nodup_cons.mp hnd).1
          have hqr : ¬ q = r :=
            fun he => hqmem (he ▸ List.mem_of_mem_getLast? hr')
          refine Chain.cons ?_ (ih hr' hnd')
          rw [hLookup_cons, if_neg hqp, hLookup_hSetNext_ne _ hqr]
          exact hl

/-! ### Operation-level lemmas -/

theorem hSetNext_bound {h : List (Ptr × Node α)} {r : Ptr} {nx : Option Ptr}
    {a : Nat} (hb : ∀ e ∈ h, e.1 < a) :
    ∀ e ∈ hSetNext h r nx, e.1 < a := by
  intro e he
  obtain ⟨e0, he0, hfe⟩ := List.mem_map.mp he
  subst hfe
  by_cases h1 : e0.1 = r
  · simp [h1]
    exact h1 ▸ hb e0 he0
  · simp [h1]
    exact hb e0 he0

theorem ConcurrentQueue.wf_init : (ConcurrentQueue.init : ConcurrentQueue α).WF :=
  ⟨[], [], Chain.nil, rfl, rfl, List.nodup_nil,
    fun e he => absurd he (List.not_mem_nil e)⟩

theorem ConcurrentQueue.toList_init :
    (ConcurrentQueue.init : ConcurrentQueue α).toList = [] := rfl

theorem ConcurrentQueue.fresh_lookup {q : ConcurrentQueue α}
    (hb : ∀ e ∈ q.heap, e.1 < q.alloc) :
    hLookup q.heap q.alloc = none := by
  cases hk : hLookup q.heap q.alloc with
  | none => rfl
  | some n =>
      have := hb _ (hLookup_mem hk)
      simp at this

theorem ConcurrentQueue.push_spec {q : ConcurrentQueue α} (h : q.WF) (v : α) :
    (q.push v).WF ∧ (q.push v).toList = q.toList ++ [v] := by
  obtain ⟨ps, vs, hc, hlen, hrear, hnd, hbound⟩ := h
  have hvs : q.toList = vs := chainVals_of_chain hc q.size_ (le_of_eq hlen)
  have hpk : hLookup q.heap q.alloc = none := ConcurrentQueue.fresh_lookup hbound
  cases hf : q.front_ with
  | none =>
      rw [hf] at hc
      obtain ⟨hps, hvs0⟩ : ps = [] ∧ vs = [] := by cases hc; exact ⟨rfl, rfl⟩
      have hsz : q.size_ = 0 := by rw [← hlen, hps]; rfl
      have hpush : q.push v
          = { heap := (q.alloc, (⟨v, none⟩ : Node α)) :: q.heap,
              alloc := q.alloc + 1, front_ := some q.alloc,
              rear_ := some q.alloc, size_ := q.size_ + 1 } := by
        simp [ConcurrentQueue.push, ConcurrentQueue.push_locked, hf]
      have hchain : Chain ((q.alloc, (⟨v, none⟩ : Node α)) :: q.heap)
          (some q.alloc) [q.alloc] [v] := by
        refine Chain.cons ?_ Chain.nil
        rw [hLookup_cons, if_pos rfl]
      constructor
      · rw [hpush]
        refine ⟨[q.alloc], [v], hchain, by simp [hsz], by simp, by simp, ?_⟩
        intro e he
        rcases List.mem_cons.mp he with h1 | h2
        · rw [h1]; simp
        · exact Nat.lt_succ_of_lt (hbound e h2)
      · rw [hpush, hvs, hvs0]
        show chainVals _ (some q.alloc) (q.size_ + 1) = [] ++ [v]
        rw [chainVals_of_chain hchain (q.size_ + 1) (by simp)]
        simp
  | some f =>
      rw [hf] at hc
      have hpsne : ps ≠ [] := by cases hc; simp
      obtain ⟨r, hr⟩ : ∃ r, ps.getLast? = some r := by
        cases hx : ps.getLast? with
        | none => exact absurd (List.getLast?_eq_none_iff.mp hx) hpsne
        | some r => exact ⟨r, rfl⟩
      have hrear' : q.rear_ = some r := by rw [hrear, hr]
      have halm : q.alloc ∉ ps := by
        intro hm
        obtain ⟨n, hn⟩ := Chain.lookup_of_mem hc hm
        rw [hpk] at hn
        cases hn
      have hchain' := Chain.snoc (p := q.alloc) (v := v) hc hr hnd hpk
      have hpush : q.push v
          = { heap := (q.alloc, (⟨v, none⟩ : Node α))
                :: hSetNext q.heap r (some q.alloc),
              alloc := q.alloc + 1, front_ := some f,
              rear_ := some q.alloc, size_ := q.size_ + 1 } := by
        simp [ConcurrentQueue.push, ConcurrentQueue.push_locked, hf, hrear']
      constructor
      · rw [hpush]
        refine ⟨ps ++ [q.alloc], vs ++ [v], hchain', by simp [hlen],
          by simp [List.getLast?_append], by simp [List.nodup_append, hnd, halm], ?_⟩
        intro e he
        rcases List.mem_cons.mp he with h1 | h2
        · rw [h1]; simp
        · exact Nat.lt_succ_of_lt (hSetNext_bound hbound e h2)
      · rw [hpush, hvs]
        show chainVals _ (some f) (q.size_ + 1) = vs ++ [v]
        rw [chainVals_of_chain hchain' (q.size_ + 1) (by simp [hlen])]

theorem ConcurrentQueue.wf_empty_state {q : ConcurrentQueue α} (h : q.WF)
    (hf : q.front_ = none) :
    q.toList = [] ∧ q.size_ = 0 ∧ q.rear_ = none := by
  obtain ⟨ps, vs, hc, hlen, hrear, hnd, _⟩ := h
  have hvs : q.toList = vs := chainVals_of_chain hc q.size_ (le_of_eq hlen)
  rw [hf] at hc
  obtain ⟨hps, hvs0⟩ : ps = [] ∧ vs = [] := by cases hc; exact ⟨rfl, rfl⟩
  refine ⟨by rw [hvs, hvs0], by rw [← hlen, hps]; rfl, by rw [hrear, hps]; rfl⟩

theorem ConcurrentQueue.wf_toList_nil {q : ConcurrentQueue α} (h : q.WF)
    (ht : q.toList = []) :
    q.front_ = none ∧ q.size_ = 0 ∧ q.rear_ = none := by
  obtain ⟨ps, vs, hc, hlen, hrear, hnd, hb⟩ := h
  have hvs : q.toList = vs := chainVals_of_chain hc q.size_ (le_of_eq hlen)
  rw [ht] at hvs
  cases hf : q.front_ with
  | some f =>
      rw [hf] at hc
      rw [← hvs] at hc
      cases hc
  | none =>
      have h2 := ConcurrentQueue.wf_empty_state
        ⟨ps, vs, hc, hlen, hrear, hnd, hb⟩ hf
      exact ⟨rfl, h2.2.1, h2.2.2⟩

theorem ConcurrentQueue.try_pop_spec {q : ConcurrentQueue α} {v : α}
    {rest : List α} (h : q.WF) (ht : q.toList = v :: rest) (d : α) :
    (q.try_pop d).1 = true ∧ (q.try_pop d).2.1 = v ∧
      (q.try_pop d).2.2.WF ∧ (q.try_pop d).2.2.toList = rest ∧
      (q.try_pop d).2.2.size_ = q.size_ - 1 := by
  obtain ⟨ps, vs, hc, hlen, hrear, hnd, hbound⟩ := h
  have hvs : q.toList = vs := chainVals_of_chain hc q.size_ (le_of_eq hlen)
  rw [ht] at hvs
  subst hvs
  cases hf : q.front_ with
  | none =>
      rw [hf] at hc
      cases hc
  | some f =>
      rw [hf] at hc
      cases hc with
      | @cons _ _ nx ps' _ hl hc' =>
          have hu : q.try_pop d = (true, v,
              { heap := hErase q.heap f, alloc := q.alloc, front_ := nx,
                rear_ := if q.rear_ = some f then none else q.rear_,
                size_ := q.size_ - 1 }) := by
            simp [ConcurrentQueue.try_pop, hf, hl]
          have hfn : f ∉ ps' := (List.nodup_cons.mp hnd).1
          have hnd' : ps'.Nodup := (List.nodup_cons.mp hnd).2
          have hpres : ∀ p ∈ ps',
              hLookup (hErase q.heap f) p = hLookup q.heap p := by
            intro p2 hp
            have hne2 : ¬ p2 = f := fun he => hfn (he ▸ hp)
            rw [hLookup_hErase, if_neg hne2]
          have hchain' : Chain (hErase q.heap f) nx ps' rest :=
            Chain.congr hc' hpres
          have hlen' : ps'.length = q.size_ - 1 := by
            have h2 : ps'.length + 1 = q.size_ := by simpa using hlen
            omega
          have hrear2 : (if q.rear_ = some f then none else q.rear_)
              = ps'.getLast? := by
            cases ps' with
            | nil =>
                have hrf : q.rear_ = some f := by rw [hrear]; rfl
                simp [hrf]
            | cons q2 ps'' =>
                have hg : (f :: q2 :: ps'').getLast? = (q2 :: ps'').getLast? :=
                  List.getLast?_cons_cons
                obtain ⟨r2, hr2⟩ : ∃ r2, (q2 :: ps'').getLast? = some r2 := by
                  cases hx : (q2 :: ps'').getLast? with
                  | none =>
                      exact absurd (List.getLast?_eq_none_iff.mp hx) (by simp)
                  | some y => exact ⟨y, rfl⟩
                have hr2mem : r2 ∈ q2 :: ps'' := List.mem_of_mem_getLast? hr2
                have hrq : q.rear_ = some r2 := by rw [hrear, hg, hr2]
                have hne : ¬ q.rear_ = some f := by
                  rw [hrq]
                  intro hx
                  have hrf2 : r2 = f := by injection hx
                  exact hfn (hrf2 ▸ hr2mem)
                rw [if_neg hne]
                exact hrear.trans hg
          rw [hu]
          refine ⟨rfl, rfl, ?_, ?_, rfl⟩
          · exact ⟨ps', rest, hchain', hlen', hrear2, hnd',
              fun e he => hbound e (hErase_subset he)⟩
          · show chainVals (hErase q.heap f) nx (q.size_ - 1) = rest
            exact chainVals_of_chain hchain' _ (le_of_eq hlen')

theorem ConcurrentQueue.pop_timed_eq_try_pop (q : ConcurrentQueue α)
    (d : α) : q.pop_timed d = q.try_pop d := rfl

theorem ConcurrentQueue.pop_eq_try_pop (q : ConcurrentQueue α) (d : α) :
    q.pop = if (q.try_pop d).1 = true
      then some ((q.try_pop d).2.1, (q.try_pop d).2.2) else none := by
  cases hf : q.front_ with
  | none => simp [ConcurrentQueue.pop, ConcurrentQueue.try_pop, hf]
  | some f =>
      cases hl : hLookup q.heap f with
      | none => simp [ConcurrentQueue.pop, ConcurrentQueue.try_pop, hf, hl]
      | some n => simp [ConcurrentQueue.pop, ConcurrentQueue.try_pop, hf, hl]

theorem ConcurrentQueue.pushAll_spec {q : ConcurrentQueue α} (h : q.WF)
    (vs : List α) :
    (q.pushAll vs).WF ∧ (q.pushAll vs).toList = q.toList ++ vs := by
  induction vs generalizing q with
  | nil => exact ⟨h, by simp [ConcurrentQueue.pushAll]⟩
  | cons v vs ih =>
      have h1 := ConcurrentQueue.push_spec h v
      have h2 := ih h1.1
      refine ⟨h2.1, ?_⟩
      rw [show q.pushAll (v :: vs) = (q.push v).pushAll vs from rfl, h2.2,
        h1.2]
      simp

theorem ConcurrentQueue.popN_spec_aux :
    ∀ (n : Nat) (q : ConcurrentQueue α) (d : α), q.WF →
      q.toList.length = n →
      (q.popN d n).1 = q.toList ∧ (q.popN d n).2.WF ∧
        (q.popN d n).2.toList = [] := by
  intro n
  induction n with
  | zero =>
      intro q d h hl
      have hnil : q.toList = [] := List.length_eq_zero.mp hl
      exact ⟨hnil.symm, h, hnil⟩
  | succ m ih =>
      intro q d h hl
      obtain ⟨v, rest, hvr⟩ : ∃ v rest, q.toList = v :: rest := by
        cases hx : q.toList with
        | nil => rw [hx] at hl; cases hl
        | cons a b => exact ⟨a, b, rfl⟩
      have hs := ConcurrentQueue.try_pop_spec h hvr d
      have hrl : (q.try_pop d).2.2.toList.length = m := by
        rw [hs.2.2.2.1]
        have h2 : q.toList.length = m + 1 := hl
        rw [hvr] at h2
        simpa using h2
      have ih2 := ih (q.try_pop d).2.2 (q.try_pop d).2.1 hs.2.2.1 hrl
      refine ⟨?_, ih2.2.1, ih2.2.2⟩
      show (q.try_pop d).2.1
          :: ((q.try_pop d).2.2.popN (q.try_pop d).2.1 m).1 = q.toList
      rw [ih2.1, hs.2.1, hs.2.2.2.1, hvr]

theorem ConcurrentQueue.copyLoop_spec {src : ConcurrentQueue α}
    {s : Option Ptr} {ps : List Ptr} {vs : List α}
    (hc : Chain src.heap s ps vs) :
    ∀ (fuel : Nat), ps.length ≤ fuel → ∀ (acc : ConcurrentQueue α), acc.WF →
      (ConcurrentQueue.copyLoop src s fuel acc).WF ∧
        (ConcurrentQueue.copyLoop src s fuel acc).toList
          = acc.toList ++ vs := by
  induction hc with
  | nil =>
      intro fuel _ acc ha
      have hid : ConcurrentQueue.copyLoop src none fuel acc = acc := by
        cases fuel <;> simp [ConcurrentQueue.copyLoop]
      rw [hid]
      exact ⟨ha, by simp⟩
  | @cons p v nx ps' vs' hl hc' ih =>
      intro fuel hf acc ha
      cases fuel with
      | zero => exact absurd hf (by simp)
      | succ m =>
          have hm : ps'.length ≤ m := Nat.le_of_succ_le_succ hf
          have hpa := ConcurrentQueue.push_spec ha v
          have ih2 := ih m hm (acc.push v) hpa.1
          have hstep : ConcurrentQueue.copyLoop src (some p) (m + 1) acc
              = ConcurrentQueue.copyLoop src nx m (acc.push v) := by
            simp [ConcurrentQueue.copyLoop, hl]
          refine ⟨hstep ▸ ih2.1, ?_⟩
          rw [hstep, ih2.2, hpa.2]
          simp

theorem ConcurrentQueue.front_node {q : ConcurrentQueue α} {v : α}
    {rest : List α} (h : q.WF) (ht : q.toList = v :: rest) :
    ∃ f nx, q.front_ = some f
      ∧ hLookup q.heap f = some (⟨v, nx⟩ : Node α) := by
  obtain ⟨ps, vs, hc, hlen, _, _, _⟩ := h
  have hvs : q.toList = vs := chainVals_of_chain hc q.size_ (le_of_eq hlen)
  rw [ht] at hvs
  subst hvs
  cases hf : q.front_ with
  | none => rw [hf] at hc; cases hc
  | some f =>
      rw [hf] at hc
      cases hc with
      | @cons _ _ nx _ _ hl _ => exact ⟨f, nx, rfl, hl⟩

theorem ConcurrentQueue.try_peek_spec {q : ConcurrentQueue α} {v : α}
    {rest : List α} (h : q.WF) (ht : q.toList = v :: rest) (d : α) :
    q.try_peek d = (true, v, q) := by
  obtain ⟨f, nx, hf, hl⟩ := ConcurrentQueue.front_node h ht
  simp [ConcurrentQueue.try_peek, hf, hl]

theorem ConcurrentQueue.chain_length_le_heap {heap : List (Ptr × Node α)}
    {s : Option Ptr} {ps : List Ptr} {vs : List α}
    (hc : Chain heap s ps vs) (hnd : ps.Nodup) :
    ps.length ≤ heap.length := by
  have hsub : ps.toFinset ⊆ (heap.map Prod.fst).toFinset := by
    intro p hp
    rw [List.mem_toFinset] at hp
    obtain ⟨n, hn⟩ := Chain.lookup_of_mem hc hp
    rw [List.mem_toFinset]
    exact List.mem_map.mpr ⟨(p, n), hLookup_mem hn, rfl⟩
  have h1 : ps.toFinset.card = ps.length := List.toFinset_card_of_nodup hnd
  have h2 : (heap.map Prod.fst).toFinset.card ≤ (heap.map Prod.fst).length :=
    List.toFinset_card_le _
  have h3 : (heap.map Prod.fst).length = heap.length := List.length_map _ _
  calc ps.length = ps.toFinset.card := h1.symm
    _ ≤ (heap.map Prod.fst).toFinset.card := Finset.card_le_card hsub
    _ ≤ heap.length := h3 ▸ h2

theorem ConcurrentQueue.try_pop_empty {q : ConcurrentQueue α}
    (hf : q.front_ = none) (d : α) : q.try_pop d = (false, d, q) := by
  simp [ConcurrentQueue.try_pop, hf]

theorem ConcurrentQueue.try_pop_eq {q : ConcurrentQueue α} {v : α}
    {rest : List α} (h : q.WF) (ht : q.toList = v :: rest) (d : α) :
    ∃ q', q.try_pop d = (true, v, q') ∧ q'.WF ∧ q'.toList = rest ∧
      q'.size_ = q.size_ - 1 := by
  have hs := ConcurrentQueue.try_pop_spec h ht d
  refine ⟨(q.try_pop d).2.2, ?_, hs.2.2.1, hs.2.2.2.1, hs.2.2.2.2⟩
  have h2 : q.try_pop d
      = ((q.try_pop d).1, (q.try_pop d).2.1, (q.try_pop d).2.2) := rfl
  rw [h2, hs.1, hs.2.1]

theorem ConcurrentQueue.wf_try_pop {q : ConcurrentQueue α} (h : q.WF)
    (d : α) : (q.try_pop d).2.2.WF := by
  cases hx : q.toList with
  | nil =>
      have hf := (ConcurrentQueue.wf_toList_nil h hx).1
      rw [ConcurrentQueue.try_pop_empty hf d]
      exact h
  | cons v rest => exact (ConcurrentQueue.try_pop_spec h hx d).2.2.1

theorem ConcurrentQueue.try_peek_state (q : ConcurrentQueue α) (d : α) :
    (q.try_peek d).2.2 = q := by
  cases hf : q.front_ with
  | none => simp [ConcurrentQueue.try_peek, hf]
  | some f =>
      cases hl : hLookup q.heap f <;> simp [ConcurrentQueue.try_peek, hf, hl]

theorem ConcurrentQueue.wf_nonempty_state {q : ConcurrentQueue α}
    (h : q.WF) {f : Ptr} (hf : q.front_ = some f) :
    q.rear_ ≠ none ∧ q.size_ ≠ 0 := by
  obtain ⟨ps, vs, hc, hlen, hrear, hnd, _⟩ := h
  rw [hf] at hc
  cases hc with
  | @cons _ _ nx ps' _ hl hc' =>
      constructor
      · rw [hrear]
        intro hx
        exact absurd (List.getLast?_eq_none_iff.mp hx) (by simp)
      · rw [← hlen]
        simp

theorem ConcurrentQueue.copyCtor_spec {other : ConcurrentQueue α}
    (h : other.WF) :
    (ConcurrentQueue.copyCtor other).WF ∧
      (ConcurrentQueue.copyCtor other).toList = other.toList := by
  obtain ⟨ps, vs, hc, hlen, hrear, hnd, hb⟩ := h
  have hvs : other.toList = vs :=
    chainVals_of_chain hc other.size_ (le_of_eq hlen)
  have hfl : ps.length ≤ other.heap.length + 1 :=
    le_trans (ConcurrentQueue.chain_length_le_heap hc hnd) (Nat.le_succ _)
  have hcl := ConcurrentQueue.copyLoop_spec hc (other.heap.length + 1) hfl
    ConcurrentQueue.init ConcurrentQueue.wf_init
  refine ⟨hcl.1, ?_⟩
  show (ConcurrentQueue.copyLoop other other.front_ (other.heap.length + 1)
      ConcurrentQueue.init).toList = other.toList
  rw [hcl.2, hvs, ConcurrentQueue.toList_init]
  simp

theorem ConcurrentQueue.cleared_wf (a : Ptr) :
    (⟨[], a, none, none, 0⟩ : ConcurrentQueue α).WF :=
  ⟨[], [], Chain.nil, rfl, rfl, List.nodup_nil,
    fun e he => absurd he (List.not_mem_nil e)⟩

theorem ConcurrentQueue.copyAssign_spec {other : ConcurrentQueue α}
    (dest : ConcurrentQueue α) (h : other.WF) :
    (ConcurrentQueue.copyAssign dest other false).WF ∧
      (ConcurrentQueue.copyAssign dest other false).toList
        = other.toList := by
  obtain ⟨ps, vs, hc, hlen, hrear, hnd, hb⟩ := h
  have hvs : other.toList = vs :=
    chainVals_of_chain hc other.size_ (le_of_eq hlen)
  have hfl : ps.length ≤ other.heap.length + 1 :=
    le_trans (ConcurrentQueue.chain_length_le_heap hc hnd) (Nat.le_succ _)
  have hcl := ConcurrentQueue.copyLoop_spec hc (other.heap.length + 1) hfl
    (⟨[], dest.alloc, none, none, 0⟩ : ConcurrentQueue α)
    (ConcurrentQueue.cleared_wf dest.alloc)
  have hid : ConcurrentQueue.copyAssign dest other false
      = ConcurrentQueue.copyLoop other other.front_ (other.heap.length + 1)
        (⟨[], dest.alloc, none, none, 0⟩ : ConcurrentQueue α) := by
    simp [ConcurrentQueue.copyAssign]
  rw [hid]
  refine ⟨hcl.1, ?_⟩
  rw [hcl.2, hvs]
  show [] ++ vs = vs
  simp

theorem ConcurrentQueue.drain_spec_aux :
    ∀ (n : Nat) (q : ConcurrentQueue α) (d : α) (c : Nat → Bool), q.WF →
      q.toList.length = n →
      ∃ qf, ConcurrentQueue.drain q d c n = some (q.toList, qf) ∧ qf.WF ∧
        qf.toList = [] := by
  intro n
  induction n with
  | zero =>
      intro q d c h hl
      have hnil : q.toList = [] := List.length_eq_zero.mp hl
      exact ⟨q, by rw [hnil]; rfl, h, hnil⟩
  | succ m ih =>
      intro q d c h hl
      obtain ⟨v, rest, hvr⟩ : ∃ v rest, q.toList = v :: rest := by
        cases hx : q.toList with
        | nil => rw [hx] at hl; cases hl
        | cons a b => exact ⟨a, b, rfl⟩
      obtain ⟨q', he, hwf', htl', _⟩ := ConcurrentQueue.try_pop_eq h hvr d
      have hstep : (if c m then q.pop
          else match q.try_pop d with
               | (true, v2, q2) => some (v2, q2)
               | (false, _, _) => none) = some (v, q') := by
        by_cases hcm : c m
        · rw [if_pos hcm, ConcurrentQueue.pop_eq_try_pop q d, he]
          simp
        · rw [if_neg hcm, he]
      have hrl : q'.toList.length = m := by
        rw [htl']
        have h2 : q.toList.length = m + 1 := hl
        rw [hvr] at h2
        simpa using h2
      obtain ⟨qf, hdr, hqf, hqfl⟩ := ih q' d c hwf' hrl
      refine ⟨qf, ?_, hqf, hqfl⟩
      show (match (if c m then q.pop
          else match q.try_pop d with
               | (true, v2, q2) => some (v2, q2)
               | (false, _, _) => none) with
        | none => none
        | some (v2, q2) =>
            match ConcurrentQueue.drain q2 d c m with
            | none => none
            | some (vs2, q3) => some (v2 :: vs2, q3)) = some (q.toList, qf)
      rw [hstep]
      simp [hdr, htl', hvr]

/-! ### Claim theorems -/

/-- C1 (FIFO order): pushing v1..vN in order into an initially empty queue
and then performing N sequential removals returns exactly v1..vN in that
order, and a further `try_pop` returns "no value" (`false`).  The first
conjunct drains with `try_pop` (`popN`); the third shows the same result
for every way of choosing blocking `pop` or `try_pop` at each removal
(`drain`). -/
theorem spec_c1_fifo_order (vs : List Nat) (d : Nat) :
    ((ConcurrentQueue.init.pushAll vs).popN d vs.length).1 = vs ∧
      (((ConcurrentQueue.init.pushAll vs).popN d vs.length).2.try_pop d).1
        = false ∧
      ∀ c : Nat → Bool, ∃ qf : ConcurrentQueue Nat,
        ConcurrentQueue.drain (ConcurrentQueue.init.pushAll vs) d c vs.length
            = some (vs, qf)
          ∧ (qf.try_pop d).1 = false := by
  have h0 := ConcurrentQueue.pushAll_spec ConcurrentQueue.wf_init vs
  have htl : (ConcurrentQueue.init.pushAll vs).toList = vs := by
    rw [h0.2, ConcurrentQueue.toList_init]
    simp
  have hlen : (ConcurrentQueue.init.pushAll vs).toList.length = vs.length :=
    by rw [htl]
  have hp := ConcurrentQueue.popN_spec_aux vs.length _ d h0.1 hlen
  refine ⟨by rw [hp.1, htl], ?_, ?_⟩
  · have hf := (ConcurrentQueue.wf_toList_nil hp.2.1 hp.2.2).1
    rw [ConcurrentQueue.try_pop_empty hf d]
  · intro c
    obtain ⟨qf, hdr, hqf, hqfl⟩ :=
      ConcurrentQueue.drain_spec_aux vs.length _ d c h0.1 hlen
    refine ⟨qf, by rw [hdr, htl], ?_⟩
    have hf := (ConcurrentQueue.wf_toList_nil hqf hqfl).1
    rw [ConcurrentQueue.try_pop_empty hf d]

/-- C3: on every well-formed empty queue, `try_pop` returns "no value"
(`false`) and leaves the queue unchanged with size 0.  It never blocks:
its empty branch returns immediately (the embedding is a total function
with no wait). -/
theorem spec_c3_try_pop_empty_queue {α : Type} (q : ConcurrentQueue α)
    (d : α) (h : q.WF) (he : q.empty = true) :
    q.try_pop d = (false, d, q) ∧ q.size = 0 := by
  have hf : q.front_ = none := by
    simpa [ConcurrentQueue.empty, ConcurrentQueue.empty_locked,
      Option.isNone_iff_eq_none] using he
  exact ⟨ConcurrentQueue.try_pop_empty hf d,
    (ConcurrentQueue.wf_empty_state h hf).2.1⟩

theorem spec_c3_witness :
    (ConcurrentQueue.init : ConcurrentQueue Nat).WF ∧
      (ConcurrentQueue.init : ConcurrentQueue Nat).empty = true ∧
      ((ConcurrentQueue.init : ConcurrentQueue Nat).try_pop 0
          = (false, 0, ConcurrentQueue.init)
        ∧ (ConcurrentQueue.init : ConcurrentQueue Nat).size = 0) :=
  ⟨ConcurrentQueue.wf_init, rfl,
    spec_c3_try_pop_empty_queue ConcurrentQueue.init 0
      ConcurrentQueue.wf_init rfl⟩

/-- C4: when the timed pop's wait ends without the queue becoming
non-empty (sequentially: the queue is empty at the call and no producer
runs, so the deadline elapses with the predicate still false), it returns
"no value" (`false`) and performs no mutation at all: the state handed
back is the argument state itself, so `front_`, `rear_`, `size_` and all
stored elements are exactly as before the call, and the out parameter is
untouched. -/
theorem spec_c4_timed_pop_timeout {α : Type} (q : ConcurrentQueue α)
    (d : α) (he : q.empty = true) :
    q.pop_timed d = (false, d, q) := by
  have hf : q.front_ = none := by
    simpa [ConcurrentQueue.empty, ConcurrentQueue.empty_locked,
      Option.isNone_iff_eq_none] using he
  simp [ConcurrentQueue.pop_timed, hf]

theorem spec_c4_witness :
    (ConcurrentQueue.init : ConcurrentQueue Nat).empty = true ∧
      (ConcurrentQueue.init : ConcurrentQueue Nat).pop_timed 5
        = (false, 5, ConcurrentQueue.init) :=
  ⟨rfl, spec_c4_timed_pop_timeout ConcurrentQueue.init 5 rfl⟩

/-- C5 (removal-path equivalence): on every well-formed non-empty queue,
`try_pop`, blocking `pop`, and the timed pop (whose predicate holds before
any deadline, so it succeeds at once) perform the same removal: the same
returned front value `v` and the same post-state `q2`; `v` is the head of
the abstract contents and `q2` holds exactly the tail (which includes the
rear pointer being cleared when the last element is removed, since the
post-states are equal as whole states). -/
theorem spec_c5_removal_equivalence {α : Type} (q : ConcurrentQueue α)
    (d : α) (h : q.WF) (hne : q.empty = false) :
    ∃ v q2, q.try_pop d = (true, v, q2) ∧ q.pop = some (v, q2) ∧
      q.pop_timed d = (true, v, q2) ∧ q.toList = v :: q2.toList := by
  obtain ⟨f, hf⟩ : ∃ f, q.front_ = some f := by
    cases hx : q.front_ with
    | none =>
        simp [ConcurrentQueue.empty, ConcurrentQueue.empty_locked, hx]
          at hne
    | some f => exact ⟨f, rfl⟩
  cases hx : q.toList with
  | nil =>
      have h2 := (ConcurrentQueue.wf_toList_nil h hx).1
      rw [h2] at hf
      cases hf
  | cons v rest =>
      obtain ⟨q2, he, hwf2, htl2, _⟩ := ConcurrentQueue.try_pop_eq h hx d
      refine ⟨v, q2, he, ?_, ?_, by rw [htl2]⟩
      · rw [ConcurrentQueue.pop_eq_try_pop q d, he]
        simp
      · rw [ConcurrentQueue.pop_timed_eq_try_pop, he]

theorem spec_c5_witness :
    ((ConcurrentQueue.init : ConcurrentQueue Nat).push 1).WF ∧
      ((ConcurrentQueue.init : ConcurrentQueue Nat).push 1).empty = false ∧
      ∃ v q2,
        ((ConcurrentQueue.init : ConcurrentQueue Nat).push 1).try_pop 0
            = (true, v, q2) ∧
          ((ConcurrentQueue.init : ConcurrentQueue Nat).push 1).pop
            = some (v, q2) ∧
          ((ConcurrentQueue.init : ConcurrentQueue Nat).push 1).pop_timed 0
            = (true, v, q2) ∧
          ((ConcurrentQueue.init : ConcurrentQueue Nat).push 1).toList
            = v :: q2.toList :=
  ⟨(ConcurrentQueue.push_spec ConcurrentQueue.wf_init 1).1, rfl,
    spec_c5_removal_equivalence _ 0
      (ConcurrentQueue.push_spec ConcurrentQueue.wf_init 1).1 rfl⟩

/-- C8 (self-assignment safety): when the object-identity test
`this == &other` holds (the `same` flag of the embedding), both copy
assignment and move assignment skip their bodies entirely and return the
queue unchanged: contents and size untouched; since the guarded body never
runs, no second lock acquisition (hence no self-deadlock) and no clearing
of the chain (hence no self-corruption) can occur. -/
theorem spec_c8_self_assignment {α : Type} (q : ConcurrentQueue α) :
    ConcurrentQueue.copyAssign q q true = q ∧
      ConcurrentQueue.moveAssign q q true = (q, q) ∧
      (ConcurrentQueue.copyAssign q q true).toList = q.toList ∧
      (ConcurrentQueue.copyAssign q q true).size = q.size ∧
      (ConcurrentQueue.moveAssign q q true).1.toList = q.toList ∧
      (ConcurrentQueue.moveAssign q q true).1.size = q.size :=
  ⟨rfl, rfl, rfl, rfl, rfl, rfl⟩

/-- C10: on every failure return, the caller-supplied out parameter holds
exactly what it held before the call: `try_pop` returning `false` (empty
queue), the timed pop returning `false` (timeout), and `try_peek`
returning `false` (empty queue) all hand back `d` unchanged. -/
theorem spec_c10_out_param_on_failure {α : Type} (q : ConcurrentQueue α)
    (d : α) :
    ((q.try_pop d).1 = false → (q.try_pop d).2.1 = d) ∧
      ((q.pop_timed d).1 = false → (q.pop_timed d).2.1 = d) ∧
      ((q.try_peek d).1 = false → (q.try_peek d).2.1 = d) := by
  cases hf : q.front_ with
  | none =>
      simp [ConcurrentQueue.try_pop, ConcurrentQueue.pop_timed,
        ConcurrentQueue.try_peek, hf]
  | some f =>
      cases hl : hLookup q.heap f with
      | none =>
          simp [ConcurrentQueue.try_pop, ConcurrentQueue.pop_timed,
            ConcurrentQueue.try_peek, hf, hl]
      | some n =>
          simp [ConcurrentQueue.try_pop, ConcurrentQueue.pop_timed,
            ConcurrentQueue.try_peek, hf, hl]

theorem spec_c10_witness :
    ((ConcurrentQueue.init : ConcurrentQueue Nat).try_pop 7).2.1 = 7 ∧
      ((ConcurrentQueue.init : ConcurrentQueue Nat).pop_timed 7).2.1 = 7 ∧
      ((ConcurrentQueue.init : ConcurrentQueue Nat).try_peek 7).2.1 = 7 :=
  ⟨(spec_c10_out_param_on_failure ConcurrentQueue.init 7).1 rfl,
    (spec_c10_out_param_on_failure ConcurrentQueue.init 7).2.1 rfl,
    (spec_c10_out_param_on_failure ConcurrentQueue.init 7).2.2 rfl⟩

/-- C2 (structural invariant preservation): `WF` — the chain of `next`
links from `front_` is a null-terminated, duplicate-free path of exactly
`size_` nodes whose last node is the one `rear_` references — holds for
the default-constructed queue and is preserved by every operation: `push`,
`try_pop`, blocking `pop`, the timed pop, `try_peek`, copy construction,
copy assignment, move construction and move assignment (both results of
the moves); and on every well-formed state `front_` is empty iff `rear_`
is empty iff `size_ = 0`. -/
theorem spec_c2_invariant_preservation {α : Type} :
    (ConcurrentQueue.init : ConcurrentQueue α).WF ∧
    (∀ (q : ConcurrentQueue α) (v : α), q.WF → (q.push v).WF) ∧
    (∀ (q : ConcurrentQueue α) (d : α), q.WF → (q.try_pop d).2.2.WF) ∧
    (∀ (q : ConcurrentQueue α) (v : α) (q2 : ConcurrentQueue α),
      q.WF → q.pop = some (v, q2) → q2.WF) ∧
    (∀ (q : ConcurrentQueue α) (d : α), q.WF → (q.pop_timed d).2.2.WF) ∧
    (∀ (q : ConcurrentQueue α) (d : α), q.WF → (q.try_peek d).2.2.WF) ∧
    (∀ q : ConcurrentQueue α, q.WF → (ConcurrentQueue.copyCtor q).WF) ∧
    (∀ (dest other : ConcurrentQueue α) (same : Bool), dest.WF → other.WF →
      (ConcurrentQueue.copyAssign dest other same).WF) ∧
    (∀ q : ConcurrentQueue α, q.WF → (ConcurrentQueue.moveCtor q).1.WF ∧
      (ConcurrentQueue.moveCtor q).2.WF) ∧
    (∀ (dest other : ConcurrentQueue α) (same : Bool), dest.WF → other.WF →
      (ConcurrentQueue.moveAssign dest other same).1.WF ∧
      (ConcurrentQueue.moveAssign dest other same).2.WF) ∧
    (∀ q : ConcurrentQueue α, q.WF →
      ((q.front_ = none ↔ q.rear_ = none) ∧
        (q.front_ = none ↔ q.size_ = 0))) := by
  refine ⟨ConcurrentQueue.wf_init, ?_, ?_, ?_, ?_, ?_, ?_, ?_, ?_, ?_, ?_⟩
  · intro q v h
    exact (ConcurrentQueue.push_spec h v).1
  · intro q d h
    exact ConcurrentQueue.wf_try_pop h d
  · intro q v q2 h hp
    rw [ConcurrentQueue.pop_eq_try_pop q v] at hp
    by_cases hb : (q.try_pop v).1 = true
    · rw [if_pos hb] at hp
      injection hp with h3
      have h4 : (q.try_pop v).2.2 = q2 := congrArg Prod.snd h3
      rw [← h4]
      exact ConcurrentQueue.wf_try_pop h v
    · rw [if_neg hb] at hp
      cases hp
  · intro q d h
    rw [ConcurrentQueue.pop_timed_eq_try_pop]
    exact ConcurrentQueue.wf_try_pop h d
  · intro q d h
    rw [ConcurrentQueue.try_peek_state]
    exact h
  · intro q h
    exact (ConcurrentQueue.copyCtor_spec h).1
  · intro dest other same hd ho
    cases same with
    | true => exact hd
    | false => exact (ConcurrentQueue.copyAssign_spec dest ho).1
  · intro q h
    exact ⟨h, ConcurrentQueue.cleared_wf q.alloc⟩
  · intro dest other same hd ho
    cases same with
    | true => exact ⟨hd, ho⟩
    | false => exact ⟨ho, ConcurrentQueue.cleared_wf other.alloc⟩
  · intro q h
    refine ⟨⟨?_, ?_⟩, ?_, ?_⟩
    · intro hf
      exact (ConcurrentQueue.wf_empty_state h hf).2.2
    · intro hr
      cases hx : q.front_ with
      | none => rfl
      | some f => exact absurd hr (ConcurrentQueue.wf_nonempty_state h hx).1
    · intro hf
      exact (ConcurrentQueue.wf_empty_state h hf).2.1
    · intro hs
      cases hx : q.front_ with
      | none => rfl
      | some f => exact absurd hs (ConcurrentQueue.wf_nonempty_state h hx).2

theorem spec_c2_witness :
    ((ConcurrentQueue.init : ConcurrentQueue Nat).push 7).WF :=
  spec_c2_invariant_preservation.2.1 ConcurrentQueue.init 7
    spec_c2_invariant_preservation.1

/-- C6 (move semantics): move construction transfers the source's entire
contents to the new object (which holds exactly the sequence the source
held, and is well-formed when the source is) and leaves the source in the
valid empty state `front_ = none`, `rear_ = none`, `size_ = 0`
(well-formed unconditionally); move assignment between distinct instances
performs exactly the same transfer, discarding the destination's previous
contents (its result coincides with a move construction from the source,
independent of anything the destination held). -/
theorem spec_c6_move_semantics {α : Type} (other dest : ConcurrentQueue α)
    (h : other.WF) :
    (ConcurrentQueue.moveCtor other).1.toList = other.toList ∧
    (ConcurrentQueue.moveCtor other).1.WF ∧
    (ConcurrentQueue.moveCtor other).2.front_ = none ∧
    (ConcurrentQueue.moveCtor other).2.rear_ = none ∧
    (ConcurrentQueue.moveCtor other).2.size_ = 0 ∧
    (ConcurrentQueue.moveCtor other).2.WF ∧
    ConcurrentQueue.moveAssign dest other false
      = ConcurrentQueue.moveCtor other ∧
    (ConcurrentQueue.moveAssign dest other false).1.toList
      = other.toList ∧
    (ConcurrentQueue.moveAssign dest other false).2.size_ = 0 :=
  ⟨rfl, h, rfl, rfl, rfl, ConcurrentQueue.cleared_wf other.alloc, rfl, rfl,
    rfl⟩

theorem spec_c6_witness :
    ((ConcurrentQueue.init : ConcurrentQueue Nat).push 3).WF ∧
      (ConcurrentQueue.moveCtor
        ((ConcurrentQueue.init : ConcurrentQueue Nat).push 3)).2.size_
          = 0 :=
  ⟨(ConcurrentQueue.push_spec ConcurrentQueue.wf_init 3).1,
    (spec_c6_move_semantics
        ((ConcurrentQueue.init : ConcurrentQueue Nat).push 3)
        ConcurrentQueue.init
        (ConcurrentQueue.push_spec ConcurrentQueue.wf_init 3).1).2.2.2.2.1⟩

/-- C7 (copy semantics and independence): copy construction produces a
well-formed queue holding a duplicate of the source's elements in the same
front-to-rear order; copy assignment between distinct instances first
clears the destination — its result is independent of the destination's
previous contents — and leaves it holding the same duplicate sequence, all
with the source unchanged (it is taken by const reference, and the
embedding's operations return the only state they modify).  The
independence of the two queues afterwards is structural in the embedding:
each queue value owns its entire node heap and the copy's nodes are fresh
allocations made by `push` from an empty state, so no mutation of either
queue's state can change the other's contents or size. -/
theorem spec_c7_copy_semantics {α : Type} (other dest : ConcurrentQueue α)
    (h : other.WF) :
    (ConcurrentQueue.copyCtor other).WF ∧
    (ConcurrentQueue.copyCtor other).toList = other.toList ∧
    (ConcurrentQueue.copyAssign dest other false).WF ∧
    (ConcurrentQueue.copyAssign dest other false).toList = other.toList ∧
    (∀ d2 : ConcurrentQueue α, d2.alloc = dest.alloc →
      ConcurrentQueue.copyAssign d2 other false
        = ConcurrentQueue.copyAssign dest other false) :=
  ⟨(ConcurrentQueue.copyCtor_spec h).1,
    (ConcurrentQueue.copyCtor_spec h).2,
    (ConcurrentQueue.copyAssign_spec dest h).1,
    (ConcurrentQueue.copyAssign_spec dest h).2,
    fun d2 hal => by simp [ConcurrentQueue.copyAssign, hal]⟩

theorem spec_c7_witness :
    ((ConcurrentQueue.init : ConcurrentQueue Nat).push 9).WF ∧
      (ConcurrentQueue.copyCtor
          ((ConcurrentQueue.init : ConcurrentQueue Nat).push 9)).toList
        = ((ConcurrentQueue.init : ConcurrentQueue Nat).push 9).toList :=
  ⟨(ConcurrentQueue.push_spec ConcurrentQueue.wf_init 9).1,
    (spec_c7_copy_semantics
        ((ConcurrentQueue.init : ConcurrentQueue Nat).push 9)
        ConcurrentQueue.init
        (ConcurrentQueue.push_spec ConcurrentQueue.wf_init 9).1).2.1⟩

/-- C9 (peek non-destructive and consistent with pop): on every well-formed
non-empty queue, `try_peek` returns `true` together with a copy of the
front element — the very value a subsequent `try_pop` (and hence, by the
removal-path equivalence, a subsequent `pop`) would return — and hands the
whole queue state back unchanged (`front_`, `rear_`, `size_` and all
elements); on an empty queue it returns "no value" with the out parameter
and the state unchanged. -/
theorem spec_c9_peek {α : Type} (q : ConcurrentQueue α) (d : α)
    (h : q.WF) :
    (q.empty = true → q.try_peek d = (false, d, q)) ∧
      (q.empty = false → ∃ v, q.try_peek d = (true, v, q) ∧
        (q.try_pop d).1 = true ∧ (q.try_pop d).2.1 = v) := by
  constructor
  · intro he
    have hf : q.front_ = none := by
      simpa [ConcurrentQueue.empty, ConcurrentQueue.empty_locked,
        Option.isNone_iff_eq_none] using he
    simp [ConcurrentQueue.try_peek, hf]
  · intro hne
    obtain ⟨f, hf⟩ : ∃ f, q.front_ = some f := by
      cases hx : q.front_ with
      | none =>
          simp [ConcurrentQueue.empty, ConcurrentQueue.empty_locked, hx]
            at hne
      | some f => exact ⟨f, rfl⟩
    cases hx : q.toList with
    | nil =>
        have h2 := (ConcurrentQueue.wf_toList_nil h hx).1
        rw [h2] at hf
        cases hf
    | cons v rest =>
        have hp := ConcurrentQueue.try_pop_spec h hx d
        exact ⟨v, ConcurrentQueue.try_peek_spec h hx d, hp.1, hp.2.1⟩

theorem spec_c9_witness :
    ((ConcurrentQueue.init : ConcurrentQueue Nat).push 4).WF ∧
      ((ConcurrentQueue.init : ConcurrentQueue Nat).push 4).empty
          = false ∧
      ∃ v, ((ConcurrentQueue.init : ConcurrentQueue Nat).push 4).try_peek 0
            = (true, v, (ConcurrentQueue.init : ConcurrentQueue Nat).push 4)
          ∧ (((ConcurrentQueue.init
                : ConcurrentQueue Nat).push 4).try_pop 0).1 = true
          ∧ (((ConcurrentQueue.init
                : ConcurrentQueue Nat).push 4).try_pop 0).2.1 = v :=
  ⟨(ConcurrentQueue.push_spec ConcurrentQueue.wf_init 4).1, rfl,
    (spec_c9_peek ((ConcurrentQueue.init : ConcurrentQueue Nat).push 4) 0
        (ConcurrentQueue.push_spec ConcurrentQueue.wf_init 4).1).2 rfl⟩
